import Mathlib

/-!
Shallow embedding of the lattice-Boltzmann particle-coupling core of this
repository (file `src/core/grid_based_algorithms/lb_particle_coupling.cpp`,
whose text is included in `src/core/unit_tests/lb_particle_coupling_test.cpp`).

Doubles are modelled as exact rationals (`ℚ`); `Utils::Vector3d` as `Vec3`.
External collaborators (the fluid interpolation, the cell structure, the box
geometry accessors) are passed in explicitly as data.  Declarations that the
sources only declare but do not define (the header
`grid_based_algorithms/lb_particle_coupling.hpp`, `utils/Counter.hpp`,
`random.hpp`) are modelled from the spec and marked as such in their doc
comments.
-/

set_option maxHeartbeats 1000000
set_option maxRecDepth 8000

/-- Exact model of `Utils::Vector3d` (components are mathematical reals,
embedded as rationals). -/
structure Vec3 where
  x : ℚ
  y : ℚ
  z : ℚ
deriving DecidableEq, Repr

instance : Zero Vec3 := ⟨⟨0, 0, 0⟩⟩

instance : Add Vec3 := ⟨fun a b => ⟨a.x + b.x, a.y + b.y, a.z + b.z⟩⟩

instance : Neg Vec3 := ⟨fun a => ⟨-a.x, -a.y, -a.z⟩⟩

instance : Sub Vec3 := ⟨fun a b => ⟨a.x - b.x, a.y - b.y, a.z - b.z⟩⟩

instance : SMul ℚ Vec3 := ⟨fun c a => ⟨c * a.x, c * a.y, c * a.z⟩⟩

/-- Component access (`v[i]` in the C++ sources). -/
def Vec3.get (v : Vec3) : Fin 3 → ℚ
  | 0 => v.x
  | 1 => v.y
  | 2 => v.z

/-- Component update (`v[i] = q` in the C++ sources). -/
def Vec3.set (v : Vec3) : Fin 3 → ℚ → Vec3
  | 0, q => ⟨q, v.y, v.z⟩
  | 1, q => ⟨v.x, q, v.z⟩
  | 2, q => ⟨v.x, v.y, q⟩

/-- `Utils::hadamard_product` on 3-vectors. -/
def Vec3.hadamard (a b : Vec3) : Vec3 := ⟨a.x * b.x, a.y * b.y, a.z * b.z⟩

/-- `LocalBox` geometry of one MPI rank: `local_geo.my_left()` and
`local_geo.my_right()`. -/
structure LocalGeo where
  my_left : Vec3
  my_right : Vec3
deriving DecidableEq, Repr

/-- `LeesEdwardsBC`: shear plane normal axis, shear direction axis and the
accumulated position offset (fields used by `positions_in_halo`). -/
structure LeesEdwardsBC where
  shear_direction : Fin 3
  shear_plane_normal : Fin 3
  pos_offset : ℚ
deriving DecidableEq, Repr

/-- `BoxType` enum: `{CUBOID, LEES_EDWARDS}`. -/
inductive BoxType where
  | cuboid
  | lees_edwards
deriving DecidableEq, Repr

/-- `BoxGeometry`: box lengths, box type and the Lees-Edwards parameters. -/
structure BoxGeometry where
  length : Vec3
  type : BoxType
  lees_edwards_bc : LeesEdwardsBC
deriving DecidableEq, Repr

/-- `std::numeric_limits<double>::epsilon()`, exactly `2⁻⁵²`. -/
def double_epsilon : ℚ := 1 / 2 ^ 52

/-- Source (`lb_particle_coupling.cpp`):
`in_local_domain(pos, halo)` returns `pos >= local_geo.my_left() - halo_vec
and pos < local_geo.my_right() + halo_vec`, with the `Utils::Vector`
comparisons taken component-wise. -/
def in_local_domain (lg : LocalGeo) (pos : Vec3) (halo : ℚ) : Bool :=
  decide (lg.my_left.x - halo ≤ pos.x ∧ pos.x < lg.my_right.x + halo) &&
  decide (lg.my_left.y - halo ≤ pos.y ∧ pos.y < lg.my_right.y + halo) &&
  decide (lg.my_left.z - halo ≤ pos.z ∧ pos.z < lg.my_right.z + halo)

/-- Source: `in_local_halo(pos)` is `in_local_domain(pos, 0.5 * agrid)`. -/
def in_local_halo (lg : LocalGeo) (agrid : ℚ) (pos : Vec3) : Bool :=
  in_local_domain lg pos (1 / 2 * agrid)

/-- One periodic shift: a triple of factors in `{-1, 0, 1}` (loop indices
`i`, `j`, `k` of `positions_in_halo`). -/
structure Shift3 where
  sx : ℤ
  sy : ℤ
  sz : ℤ
deriving DecidableEq, Repr

/-- The loop bounds `{-1, 0, 1}` of `positions_in_halo`. -/
def shift_range : List ℤ := [-1, 0, 1]

/-- The 27 shift triples in the nested iteration order of the source
(`i` outermost over x, then `j` over y, then `k` over z, each `-1, 0, 1`). -/
def shift_triples : List Shift3 :=
  shift_range.flatMap fun i =>
    shift_range.flatMap fun j =>
      shift_range.map fun k => ⟨i, j, k⟩

/-- `pos + Utils::hadamard_product(box.length(), shift)` for an integer
shift triple. -/
def shift_pos (pos L : Vec3) (s : Shift3) : Vec3 :=
  pos + Vec3.hadamard L ⟨(s.sx : ℚ), (s.sy : ℚ), (s.sz : ℚ)⟩

/-- The Lees-Edwards correction applied to one shifted candidate inside
`positions_in_halo`: when the displacement along the shear plane normal
exceeds machine epsilon the shear-direction coordinate gains `pos_offset`,
when it is below minus epsilon it loses `pos_offset`. -/
def lees_edwards_correction (box : BoxGeometry) (pos pos_shifted : Vec3) : Vec3 :=
  match box.type with
  | BoxType.cuboid => pos_shifted
  | BoxType.lees_edwards =>
    let le := box.lees_edwards_bc
    let normal_shift := (pos_shifted - pos).get le.shear_plane_normal
    let p1 :=
      if double_epsilon < normal_shift then
        pos_shifted.set le.shear_direction
          (pos_shifted.get le.shear_direction + le.pos_offset)
      else pos_shifted
    if normal_shift < -double_epsilon then
      p1.set le.shear_direction (p1.get le.shear_direction - le.pos_offset)
    else p1

/-- Source: `positions_in_halo(pos, box)` enumerates the 27 shifted
candidates in the fixed nested order, applies the Lees-Edwards correction,
and keeps (in that order) exactly those satisfying `in_local_halo`. -/
def positions_in_halo (lg : LocalGeo) (agrid : ℚ) (pos : Vec3)
    (box : BoxGeometry) : List Vec3 :=
  (shift_triples.map fun s =>
      lees_edwards_correction box pos (shift_pos pos box.length s)).filter
    (fun v => in_local_halo lg agrid v)

/-- Component access on a shift triple. -/
def Shift3.get (s : Shift3) : Fin 3 → ℤ
  | 0 => s.sx
  | 1 => s.sy
  | 2 => s.sz

/-- One candidate of the enumerator as claim C7's words describe it: the
shifted position, its shear-direction coordinate adjusted by `pos_offset`
(sign matching the shift direction) whenever the shift along the
shear-plane-normal axis is NONZERO. -/
def claimed_candidate (box : BoxGeometry) (pos : Vec3) (s : Shift3) : Vec3 :=
  let base := shift_pos pos box.length s
  match box.type with
  | BoxType.cuboid => base
  | BoxType.lees_edwards =>
    let le := box.lees_edwards_bc
    let d := box.length.get le.shear_plane_normal *
      ((s.get le.shear_plane_normal : ℤ) : ℚ)
    if 0 < d then
      base.set le.shear_direction (base.get le.shear_direction + le.pos_offset)
    else if d < 0 then
      base.set le.shear_direction (base.get le.shear_direction - le.pos_offset)
    else base

/-- One candidate of the enumerator with the adjustment condition amended
to the source's machine-epsilon threshold: adjusted only when the shift
along the shear-plane-normal axis exceeds `2⁻⁵²` in magnitude. -/
def claimed_candidate_eps (box : BoxGeometry) (pos : Vec3) (s : Shift3) : Vec3 :=
  let base := shift_pos pos box.length s
  match box.type with
  | BoxType.cuboid => base
  | BoxType.lees_edwards =>
    let le := box.lees_edwards_bc
    let d := box.length.get le.shear_plane_normal *
      ((s.get le.shear_plane_normal : ℤ) : ℚ)
    if double_epsilon < d then
      base.set le.shear_direction (base.get le.shear_direction + le.pos_offset)
    else if d < -double_epsilon then
      base.set le.shear_direction (base.get le.shear_direction - le.pos_offset)
    else base

/-- The enumerator exactly as claim C7 words it ("nonzero" adjustment
condition): the 27 corrected candidates in the fixed nested order, filtered
by `in_local_halo` keeping order. -/
def claimed_positions_in_halo (lg : LocalGeo) (agrid : ℚ) (pos : Vec3)
    (box : BoxGeometry) : List Vec3 :=
  (shift_triples.map fun s => claimed_candidate box pos s).filter
    (fun v => in_local_halo lg agrid v)

/-- The enumerator as amended (machine-epsilon adjustment condition). -/
def claimed_positions_in_halo_eps (lg : LocalGeo) (agrid : ℚ) (pos : Vec3)
    (box : BoxGeometry) : List Vec3 :=
  (shift_triples.map fun s => claimed_candidate_eps box pos s).filter
    (fun v => in_local_halo lg agrid v)

/-- Swimming parameters of a particle (the `ENGINE` feature). -/
structure ParticleSwimming where
  swimming : Bool
  v_swim : ℚ
  f_swim : ℚ
  dipole_length : ℚ
  push_pull : ℤ
deriving DecidableEq, Repr

/-- The particle data consumed by the coupling core.  `director` stores the
result of the external `calc_director()` collaborator (the body-fixed
symmetry axis in the lab frame); `mu_E` is the electrohydrodynamic mobility
(`LB_ELECTROHYDRODYNAMICS` feature); `ghost` is the ghost-vs-real flag of
this copy. -/
structure Particle where
  id : ℕ
  pos : Vec3
  v : Vec3
  is_virtual : Bool
  ghost : Bool
  swim : ParticleSwimming
  mu_E : Vec3
  director : Vec3
deriving DecidableEq, Repr

/-- `LB::ParticleCouplingConfig` (the global `lb_particle_coupling`):
`couple_to_md`, `gamma` and the coupling RNG counter.

Modelled from the spec for the counter representation: `Utils::Counter`
(file `utils/Counter.hpp` is not among the sources) is described by the
spec (§3) as a monotonically increasing 64-bit counter incremented exactly
once per step; we model its value as a natural number and `increment()` as
`+ 1`, and the `OptionalCounter` of the missing header as `Option ℕ`
(`none` = Uninitialized, `some c` = Seeded at `c`). -/
structure ParticleCouplingConfig where
  couple_to_md : Bool
  gamma : ℚ
  rng_counter_coupling : Option ℕ
deriving DecidableEq, Repr

/-- `ActiveLB` lattice switch (the sources use `ActiveLB::NONE` and
`ActiveLB::WALBERLA_LB`). -/
inductive ActiveLB where
  | none
  | walberla
deriving DecidableEq, Repr

/-- The error message thrown by `LB::ParticleCoupling::get_noise_term` (and,
per the spec, by any access to the uninitialized coupling RNG counter). -/
def uninitialized_rng_msg : String :=
  "Access to uninitialized LB particle coupling RNG counter"

/-- The error message thrown when the RNG state is queried or set while no
lattice method is active. -/
def no_lb_active_msg : String := "No LB active"

/-- Modelled from the spec: `Random::noise_uniform<RNGSalt::PARTICLES>`
(file `src/core/random.hpp` is not among the sources).  The spec (§4.3)
requires a pure counter-based pseudorandom function of the counter and two
key words, returning a vector of uniform variates in `[-1/2, 1/2)`, with
identical inputs always giving identical output and distinct keys giving
decorrelated streams.  We model the word function with an iterated affine
mixing permutation of the 64-bit integers. -/
def rng_mix (n : ℕ) : ℕ := (n * 6364136223846793005 + 1442695040888963407) % 2 ^ 64

/-- One output word of the modelled counter-based RNG (see `rng_mix`). -/
def rng_word (counter key1 key2 lane : ℕ) : ℕ :=
  rng_mix (rng_mix (rng_mix (rng_mix (counter % 2 ^ 64) + key1) + key2) + lane)

/-- Modelled from the spec: the uniform noise vector for
`(counter, key1, key2)`, each component a uniform variate in `[-1/2, 1/2)`
derived from one output word (see `rng_mix`). -/
def noise_uniform (counter key1 key2 : ℕ) : Vec3 :=
  ⟨(rng_word counter key1 key2 0 : ℚ) / 2 ^ 64 - 1 / 2,
   (rng_word counter key1 key2 1 : ℚ) / 2 ^ 64 - 1 / 2,
   (rng_word counter key1 key2 2 : ℚ) / 2 ^ 64 - 1 / 2⟩

/-- Modelled from the spec: `lb_particle_coupling_noise(enabled, part_id,
rng_counter)` of the missing header `lb_particle_coupling.hpp`, as exercised
by the `rng` test case: when `enabled`, it derives the noise vector from the
counter (throwing the uninitialized-counter error when no seed was set),
otherwise it returns the zero vector. -/
def lb_particle_coupling_noise (enabled : Bool) (part_id : ℕ)
    (rng_counter : Option ℕ) : Except String Vec3 :=
  if enabled then
    match rng_counter with
    | some counter => Except.ok (noise_uniform counter 0 part_id)
    | none => Except.error uninitialized_rng_msg
  else Except.ok 0

/-- Source: `lb_lbcoupling_set_gamma`. -/
def lb_lbcoupling_set_gamma (gamma : ℚ) (cfg : ParticleCouplingConfig) :
    ParticleCouplingConfig :=
  { cfg with gamma := gamma }

/-- Source: `lb_lbcoupling_is_seed_required` — true iff the lattice method
is waLBerla and the coupling counter is uninitialized. -/
def lb_lbcoupling_is_seed_required (ls : ActiveLB)
    (cfg : ParticleCouplingConfig) : Bool :=
  if ls = ActiveLB.walberla then cfg.rng_counter_coupling.isNone else false

/-- Source: `lb_coupling_get_rng_state_cpu` reads the counter through the
`OptionalCounter` accessor, which (modelled from the spec, §7) throws the
uninitialized-counter error when no seed was set. -/
def lb_coupling_get_rng_state_cpu (cfg : ParticleCouplingConfig) :
    Except String ℕ :=
  match cfg.rng_counter_coupling with
  | some c => Except.ok c
  | none => Except.error uninitialized_rng_msg

/-- Source: `lb_lbcoupling_get_rng_state` — fails with "No LB active" unless
the waLBerla lattice method is active. -/
def lb_lbcoupling_get_rng_state (ls : ActiveLB)
    (cfg : ParticleCouplingConfig) : Except String ℕ :=
  if ls = ActiveLB.walberla then lb_coupling_get_rng_state_cpu cfg
  else Except.error no_lb_active_msg

/-- Source: `lb_lbcoupling_set_rng_state`. -/
def lb_lbcoupling_set_rng_state (counter : ℕ) (ls : ActiveLB)
    (cfg : ParticleCouplingConfig) : Except String ParticleCouplingConfig :=
  if ls = ActiveLB.walberla then
    Except.ok { cfg with rng_counter_coupling := some counter }
  else Except.error no_lb_active_msg

/-- Source: `lb_lbcoupling_propagate` — the counter is incremented exactly
when a lattice method is active (`lattice_switch != ActiveLB::NONE`), the
fluid is thermalized (`LB::get_kT() > 0`) and the lattice method is
waLBerla.  The increment goes through the `OptionalCounter` accessor
(modelled from the spec: uninitialized access throws). -/
def lb_lbcoupling_propagate (ls : ActiveLB) (kT : ℚ)
    (cfg : ParticleCouplingConfig) : Except String ParticleCouplingConfig :=
  if ls ≠ ActiveLB.none then
    if 0 < kT then
      if ls = ActiveLB.walberla then
        match cfg.rng_counter_coupling with
        | some c =>
          Except.ok { cfg with rng_counter_coupling := some (c + 1) }
        | none => Except.error uninitialized_rng_msg
      else Except.ok cfg
    else Except.ok cfg
  else Except.ok cfg

/-- The collaborator data one rank's coupling pass runs against: box
geometry, local box, lattice metadata (`agrid`, `lattice_speed`), the
interpolated fluid velocity field (`lb_lbinterpolation_get_interpolated_velocity`)
and the replicated coupling configuration. -/
structure CouplingContext where
  box : BoxGeometry
  lg : LocalGeo
  agrid : ℚ
  lattice_speed : ℚ
  interp_velocity : Vec3 → Vec3
  cfg : ParticleCouplingConfig

/-- Source: `lb_particle_coupling_drift_vel_offset(p)` — the swimming
velocity contribution `v_swim * director` (when swimming) plus the
electrohydrodynamic mobility `mu_E` (both optional features compiled in). -/
def lb_particle_coupling_drift_vel_offset (p : Particle) : Vec3 :=
  (if p.swim.swimming then p.swim.v_swim • p.director else 0) + p.mu_E

/-- Source: `lb_drag_force(p, shifted_pos, vel_offset)` — interpolate the
fluid velocity at `shifted_pos`, convert with the lattice speed, add the
drift offset and return `-gamma * (p.v() - v_drift)`. -/
def lb_drag_force (ctx : CouplingContext) (p : Particle)
    (shifted_pos vel_offset : Vec3) : Vec3 :=
  let interpolated_u := ctx.lattice_speed • ctx.interp_velocity shifted_pos
  let v_drift := interpolated_u + vel_offset
  (-ctx.cfg.gamma) • (p.v - v_drift)

/-- Source: `add_md_force(pos, force, time_step)` — the lattice momentum
transfer `delta_j = -(time_step / lattice_speed) * force` handed to
`lb_lbinterpolation_add_force_density`. -/
def add_md_force_delta_j (lattice_speed time_step : ℚ) (force : Vec3) : Vec3 :=
  (-(time_step / lattice_speed)) • force

/-- The runtime state of `LB::ParticleCoupling` (constructed in the missing
header from `couple_virtual`, the thermalization state and the precomputed
noise amplitude; the fields are read by the member functions defined in the
source file). -/
structure ParticleCoupling where
  m_thermalized : Bool
  m_time_step : ℚ
  m_couple_virtual : Bool
  m_noise : ℚ

/-- Source: `LB::ParticleCoupling::get_noise_term(pid)` — the zero vector
when not thermalized; otherwise the uninitialized-counter error when no
seed was set, else `m_noise * noise_uniform(counter, 0, pid)`. -/
def get_noise_term (pc : ParticleCoupling) (cfg : ParticleCouplingConfig)
    (pid : ℕ) : Except String Vec3 :=
  if ¬ pc.m_thermalized then Except.ok 0
  else
    match cfg.rng_counter_coupling with
    | none => Except.error uninitialized_rng_msg
    | some counter =>
      Except.ok (pc.m_noise • noise_uniform counter 0 pid)

/-- The drag-plus-noise coupling force of `ParticleCoupling::kernel`: zero
when no periodic image of `p.pos()` lands in the local halo, otherwise the
drag force at the first such image plus the noise term (the noise request
can fail on an uninitialized counter). -/
def coupling_force_result (ctx : CouplingContext) (pc : ParticleCoupling)
    (p : Particle) : Except String Vec3 :=
  match (positions_in_halo ctx.lg ctx.agrid p.pos ctx.box).find?
      (fun pos => in_local_halo ctx.lg ctx.agrid pos) with
  | none => Except.ok 0
  | some pos =>
    let vel_offset := lb_particle_coupling_drift_vel_offset p
    let drag := lb_drag_force ctx p pos vel_offset
    (get_noise_term pc ctx.cfg p.id).map (fun noise => drag + noise)

/-- Source: `add_swimmer_force(p, time_step)` — the `(position, md_force)`
pairs handed to `add_md_force`: for a swimming particle, the swimming force
`f_swim * director` at every in-halo periodic image of the shifted source
position `pos + push_pull * dipole_length * director`. -/
def add_swimmer_force_calls (ctx : CouplingContext) (p : Particle) :
    List (Vec3 × Vec3) :=
  if p.swim.swimming then
    let source_position :=
      p.pos + ((p.swim.push_pull : ℚ) * p.swim.dipole_length) • p.director
    let force := p.swim.f_swim • p.director
    (positions_in_halo ctx.lg ctx.agrid source_position ctx.box).map
      (fun pos => (pos, force))
  else []

/-- The observable effects of one `ParticleCoupling::kernel(p)` call:
the force added to the particle's persistent accumulated force, the
`(position, md_force)` pairs handed to `add_md_force` by the main loop,
and the pairs handed to `add_md_force` by `add_swimmer_force`. -/
structure KernelOutput where
  force_delta : Vec3
  injections : List (Vec3 × Vec3)
  swimmer_injections : List (Vec3 × Vec3)
deriving DecidableEq, Repr

/-- Source: `LB::ParticleCoupling::kernel(p)`.  Virtual particles are
skipped unless virtual coupling is on.  The coupling force is computed from
the first in-halo periodic image (`coupling_force_result`).  The second
loop then walks every position returned by `positions_in_halo`: it adds the
coupling force to the particle's force exactly for the positions inside the
local domain (halo `0`), and calls `add_md_force` at every walked position.
Finally `add_swimmer_force` runs. -/
def kernel (ctx : CouplingContext) (pc : ParticleCoupling) (p : Particle) :
    Except String KernelOutput :=
  if p.is_virtual && !pc.m_couple_virtual then Except.ok ⟨0, [], []⟩
  else
    (coupling_force_result ctx pc p).map fun coupling_force =>
      let halo_positions := positions_in_halo ctx.lg ctx.agrid p.pos ctx.box
      let force_delta := halo_positions.foldl
        (fun acc pos =>
          if in_local_domain ctx.lg pos 0 then acc + coupling_force else acc) 0
      let injections := halo_positions.map (fun pos => (pos, coupling_force))
      ⟨force_delta, injections, add_swimmer_force_calls ctx p⟩

/-- Source: `LB::CouplingBookkeeping::is_ghost_for_local_particle(p)` —
`not cell_structure.get_local_particle(p.id())->is_ghost()`.
`local_is_ghost` models the collaborator query
`cell_structure.get_local_particle(id)->is_ghost()`. -/
def is_ghost_for_local_particle (local_is_ghost : ℕ → Bool) (p : Particle) :
    Bool :=
  !(local_is_ghost p.id)

/-- Modelled from the spec: `LB::CouplingBookkeeping::should_be_coupled`
(defined in the missing header `lb_particle_coupling.hpp`): a particle
participates in this rank's coupling pass iff it is not a ghost duplicate
of a particle this rank already owns as real, the latter test being
`is_ghost_for_local_particle`. -/
def should_be_coupled (local_is_ghost : ℕ → Bool) (p : Particle) : Bool :=
  !(p.ghost && is_ghost_for_local_particle local_is_ghost p)

/-- What one rank contributes to the coupling of one particle identity: its
local box, its `cell_structure.get_local_particle(id)->is_ghost()` answer,
its view of the fluid velocity field, and the copies of that identity
(real or ghost) appearing in the particle ranges its coupling pass walks. -/
structure RankView where
  lg : LocalGeo
  local_is_ghost : ℕ → Bool
  interp_velocity : Vec3 → Vec3
  copies : List Particle

/-- The coupling context rank `r` runs `kernel` against (the configuration
is replicated identically on every rank, per the broadcast protocol). -/
def rank_context (box : BoxGeometry) (agrid lattice_speed : ℚ)
    (cfg : ParticleCouplingConfig) (r : RankView) : CouplingContext :=
  ⟨box, r.lg, agrid, lattice_speed, r.interp_velocity, cfg⟩

/-- The restriction of `LB::couple_particles` on one rank to the copies of
one particle identity: walk the copies in range order, admit each through
`CouplingBookkeeping::should_be_coupled`, run `kernel` on the admitted
ones, and accumulate the force the kernels add to that identity's
persistent accumulated force.  The surrounding gates of `couple_particles`
(`lattice_switch == ActiveLB::WALBERLA_LB` and `couple_to_md`) are the
`ls` test and the `couple_to_md` test. -/
def couple_particles_rank (ls : ActiveLB) (box : BoxGeometry)
    (agrid lattice_speed : ℚ) (cfg : ParticleCouplingConfig)
    (pc : ParticleCoupling) (r : RankView) : Except String Vec3 :=
  if ls = ActiveLB.walberla && cfg.couple_to_md then
    r.copies.foldlM
      (fun acc p =>
        if should_be_coupled r.local_is_ghost p = true then
          (kernel (rank_context box agrid lattice_speed cfg r) pc p).map
            (fun out => acc + out.force_delta)
        else pure acc) 0
  else Except.ok 0

/-- The force added to one particle identity's persistent accumulated
force in one coupling step, summed over all ranks. -/
def total_coupled_force (ls : ActiveLB) (box : BoxGeometry)
    (agrid lattice_speed : ℚ) (cfg : ParticleCouplingConfig)
    (pc : ParticleCoupling) (ranks : List RankView) : Except String Vec3 :=
  ranks.foldlM
    (fun acc r =>
      (couple_particles_rank ls box agrid lattice_speed cfg pc r).map
        (fun f => acc + f)) 0

/-- The value `get_noise_term` returns when it does not fail (the counter
read defaulting to `0` is only reached when the counter is seeded). -/
def noise_value (pc : ParticleCoupling) (cfg : ParticleCouplingConfig)
    (pid : ℕ) : Vec3 :=
  if pc.m_thermalized then
    pc.m_noise • noise_uniform (cfg.rng_counter_coupling.getD 0) 0 pid
  else 0

/-- The value `coupling_force_result` returns when the noise request does
not fail: zero without an in-halo image, else drag at the first in-halo
image plus noise. -/
def coupling_force_value (ctx : CouplingContext) (pc : ParticleCoupling)
    (p : Particle) : Vec3 :=
  match (positions_in_halo ctx.lg ctx.agrid p.pos ctx.box).find?
      (fun pos => in_local_halo ctx.lg ctx.agrid pos) with
  | none => 0
  | some pos =>
    lb_drag_force ctx p pos (lb_particle_coupling_drift_vel_offset p) +
      noise_value pc ctx.cfg p.id

/-- A position lies inside the global simulation box `[0, L)³`
(component-wise, upper bound excluded — folded particle positions live
here, and per the spec's Local Domain invariant each rank's domain is a
sub-box of it). -/
def inside_box (L v : Vec3) : Prop :=
  (0 ≤ v.x ∧ v.x < L.x) ∧ (0 ≤ v.y ∧ v.y < L.y) ∧ (0 ≤ v.z ∧ v.z < L.z)

/-- The negated shift triple. -/
def Shift3.neg (s : Shift3) : Shift3 := ⟨-s.sx, -s.sy, -s.sz⟩

/-- Component-wise sum of two shift triples. -/
def Shift3.add (s t : Shift3) : Shift3 := ⟨s.sx + t.sx, s.sy + t.sy, s.sz + t.sz⟩

theorem Vec3.zero_def : (0 : Vec3) = ⟨0, 0, 0⟩ := rfl

theorem Vec3.add_def (a b : Vec3) : a + b = ⟨a.x + b.x, a.y + b.y, a.z + b.z⟩ := rfl

theorem Vec3.sub_def (a b : Vec3) : a - b = ⟨a.x - b.x, a.y - b.y, a.z - b.z⟩ := rfl

theorem Vec3.smul_def (c : ℚ) (a : Vec3) : c • a = ⟨c * a.x, c * a.y, c * a.z⟩ := rfl

theorem Vec3.add_zero' (a : Vec3) : a + 0 = a := by
  cases a; simp [Vec3.add_def, Vec3.zero_def]

theorem Vec3.zero_add' (a : Vec3) : (0 : Vec3) + a = a := by
  cases a; simp [Vec3.add_def, Vec3.zero_def]

theorem Vec3.smul_zero' (c : ℚ) : c • (0 : Vec3) = 0 := by
  simp [Vec3.smul_def, Vec3.zero_def]

/-- Claim C9: `in_local_domain(pos, halo)` is the component-wise half-open
box test on `[lower - halo, upper + halo)` (upper boundary excluded on each
axis), and `in_local_halo` is the same predicate at halo `agrid/2`.  Both
are pure in the embedding (they read only their arguments). -/
theorem in_local_domain_halfopen (lg : LocalGeo) (pos : Vec3) (halo agrid : ℚ) :
    (in_local_domain lg pos halo = true ↔
      ∀ i : Fin 3, lg.my_left.get i - halo ≤ pos.get i ∧
        pos.get i < lg.my_right.get i + halo) ∧
    in_local_halo lg agrid pos = in_local_domain lg pos (agrid / 2) := by
  constructor
  · simp only [in_local_domain, Bool.and_eq_true, decide_eq_true_eq]
    constructor
    · rintro ⟨⟨hx, hy⟩, hz⟩ i
      fin_cases i
      · exact hx
      · exact hy
      · exact hz
    · intro h
      exact ⟨⟨h 0, h 1⟩, h 2⟩
  · have h2 : (1 : ℚ) / 2 * agrid = agrid / 2 := by ring
    rw [in_local_halo, h2]

/-- Claim C4: `lb_drag_force(p, pos, drift_offset)` equals
`-gamma * (p.v - (interpolated_velocity(pos) * lattice_speed + drift_offset))`
for every particle, position and offset, and in a quiescent fluid with
`gamma = 1/5`, `v = (-5/2, 3/2, 2)` and offset `(-1, 1, 1)` it is exactly
`(3/10, -1/10, -1/5)`.  The temperature is not an input of the computation,
so the result is independent of it. -/
theorem lb_drag_force_formula (ctx : CouplingContext) (p : Particle)
    (pos off : Vec3) (hgamma : ctx.cfg.gamma = 1 / 5)
    (hv : p.v = ⟨-5/2, 3/2, 2⟩) (hoff : off = ⟨-1, 1, 1⟩)
    (hquiescent : ctx.interp_velocity pos = 0) :
    (∀ (ctx' : CouplingContext) (p' : Particle) (pos' off' : Vec3),
      lb_drag_force ctx' p' pos' off' =
        (-ctx'.cfg.gamma) •
          (p'.v - (ctx'.lattice_speed • ctx'.interp_velocity pos' + off'))) ∧
    lb_drag_force ctx p pos off = ⟨3/10, -1/10, -1/5⟩ := by
  refine ⟨fun _ _ _ _ => rfl, ?_⟩
  simp only [lb_drag_force, hgamma, hv, hoff, hquiescent, Vec3.smul_zero',
    Vec3.zero_add', Vec3.smul_def, Vec3.sub_def, Vec3.add_def, Vec3.zero_def]
  norm_num

/-- Witness for claim C4 at a concrete context (quiescent interpolation,
`gamma = 1/5`). -/
theorem lb_drag_force_formula_witness :
    lb_drag_force
      ⟨⟨⟨8, 8, 8⟩, BoxType.cuboid, ⟨0, 0, 0⟩⟩, ⟨⟨0, 0, 0⟩, ⟨8, 8, 8⟩⟩, 1, 1,
        fun _ => 0, ⟨true, 1/5, some 17⟩⟩
      ⟨0, ⟨1, 1, 1⟩, ⟨-5/2, 3/2, 2⟩, false, false, ⟨false, 0, 0, 0, 1⟩, 0, 0⟩
      ⟨1, 1, 1⟩ ⟨-1, 1, 1⟩ = ⟨3/10, -1/10, -1/5⟩ :=
  (lb_drag_force_formula _ _ _ _ rfl rfl rfl rfl).2

/-- Claim C10: `get_noise_term` returns the exact zero vector whenever the
coupling is not thermalized, for every particle id and every counter state
(seeded or not). -/
theorem get_noise_term_zero_when_not_thermalized (pc : ParticleCoupling)
    (cfg : ParticleCouplingConfig) (pid : ℕ)
    (h : pc.m_thermalized = false) :
    get_noise_term pc cfg pid = Except.ok 0 := by
  simp [get_noise_term, h]

/-- Witness for claim C10 at a concrete non-thermalized coupling with an
unseeded counter. -/
theorem get_noise_term_zero_when_not_thermalized_witness :
    get_noise_term ⟨false, 1/100, false, 0⟩ ⟨true, 1/5, none⟩ 7 =
      Except.ok 0 :=
  get_noise_term_zero_when_not_thermalized _ _ _ rfl

/-- Claim C5: with a seeded counter `c`, one `propagate()` call moves the
counter to `c + 1` exactly when the lattice method is active and `kT > 0`
(a subsequent `get_rng_state` then returns `c + 1` instead of `c`), and
leaves the configuration unchanged when `kT = 0` (in fact `kT ≤ 0`) or no
lattice method is active. -/
theorem lb_lbcoupling_propagate_counter (ls : ActiveLB) (kT : ℚ)
    (cfg : ParticleCouplingConfig) (c : ℕ)
    (hc : cfg.rng_counter_coupling = some c) :
    (ls = ActiveLB.walberla → 0 < kT →
      lb_lbcoupling_propagate ls kT cfg =
        Except.ok { cfg with rng_counter_coupling := some (c + 1) } ∧
      lb_lbcoupling_get_rng_state ls cfg = Except.ok c ∧
      lb_lbcoupling_get_rng_state ls
        { cfg with rng_counter_coupling := some (c + 1) } =
          Except.ok (c + 1)) ∧
    (kT ≤ 0 ∨ ls = ActiveLB.none →
      lb_lbcoupling_propagate ls kT cfg = Except.ok cfg) := by
  constructor
  · intro hls hkT
    subst hls
    refine ⟨?_, ?_, ?_⟩
    · simp [lb_lbcoupling_propagate, hc, hkT]
    · simp [lb_lbcoupling_get_rng_state, lb_coupling_get_rng_state_cpu, hc]
    · simp [lb_lbcoupling_get_rng_state, lb_coupling_get_rng_state_cpu]
  · rintro (hkT | hls)
    · have : ¬ (0 : ℚ) < kT := not_lt.mpr hkT
      cases ls <;> simp [lb_lbcoupling_propagate, this]
    · subst hls
      simp [lb_lbcoupling_propagate]

/-- Witness for claim C5: from counter 17, an active thermalized propagate
reaches 18, and a `kT = 0` propagate leaves the configuration unchanged. -/
theorem lb_lbcoupling_propagate_counter_witness :
    lb_lbcoupling_propagate ActiveLB.walberla (1/10000)
        ⟨true, 1/5, some 17⟩ =
      Except.ok ⟨true, 1/5, some 18⟩ ∧
    lb_lbcoupling_propagate ActiveLB.walberla 0 ⟨true, 1/5, some 17⟩ =
      Except.ok ⟨true, 1/5, some 17⟩ := by
  have h := lb_lbcoupling_propagate_counter ActiveLB.walberla (1/10000)
    ⟨true, 1/5, some 17⟩ 17 rfl
  have h0 := lb_lbcoupling_propagate_counter ActiveLB.walberla 0
    ⟨true, 1/5, some 17⟩ 17 rfl
  exact ⟨(h.1 rfl (by norm_num)).1, h0.2 (Or.inl le_rfl)⟩

/-- Counterexample to claim C8: with the coupling not thermalized, a noise
request on an unseeded counter does not fail — it succeeds with the zero
vector (the thermalization test precedes the counter access in
`get_noise_term`), contradicting the claim that any noise request before a
seed is set fails with the uninitialized-counter error. -/
theorem get_noise_term_unseeded_counterexample :
    get_noise_term ⟨false, 1/100, false, 0⟩ ⟨true, 1/5, none⟩ 7 =
      Except.ok 0 ∧
    get_noise_term ⟨false, 1/100, false, 0⟩ ⟨true, 1/5, none⟩ 7 ≠
      Except.error uninitialized_rng_msg := by
  refine ⟨rfl, ?_⟩
  intro h
  simp [get_noise_term] at h

/-- Claim C8 as amended: before a seed is set, a noise request fails with
the uninitialized-RNG-counter error when the coupling is thermalized (when
it is not, `get_noise_term` returns zero instead, see C10), and an RNG
state request with the lattice method active fails with the same error.
Both are pure queries in the embedding: failing means returning the error
and nothing else. -/
theorem uninitialized_rng_counter_errors (ls : ActiveLB)
    (pc : ParticleCoupling) (cfg : ParticleCouplingConfig) (pid : ℕ)
    (hseed : cfg.rng_counter_coupling = none)
    (hls : ls = ActiveLB.walberla) (hth : pc.m_thermalized = true) :
    get_noise_term pc cfg pid = Except.error uninitialized_rng_msg ∧
    lb_lbcoupling_get_rng_state ls cfg =
      Except.error uninitialized_rng_msg := by
  subst hls
  constructor
  · simp [get_noise_term, hseed, hth]
  · simp [lb_lbcoupling_get_rng_state, lb_coupling_get_rng_state_cpu, hseed]

/-- Witness for the amended claim C8 at a thermalized coupling with an
unseeded counter and the waLBerla lattice method active. -/
theorem uninitialized_rng_counter_errors_witness :
    get_noise_term ⟨true, 1/100, false, 1⟩ ⟨true, 1/5, none⟩ 7 =
      Except.error uninitialized_rng_msg ∧
    lb_lbcoupling_get_rng_state ActiveLB.walberla ⟨true, 1/5, none⟩ =
      Except.error uninitialized_rng_msg :=
  uninitialized_rng_counter_errors ActiveLB.walberla ⟨true, 1/100, false, 1⟩
    ⟨true, 1/5, none⟩ 7 rfl rfl rfl

/-- Counterexample to claim C3: when the local copy of the particle's
identity is itself a ghost (`local_is_ghost` answers `true`), the claim
says `is_ghost_for_local_particle` returns `true`, but the source
(`return not get_local_particle(p.id())->is_ghost()`) returns `false`; and
conversely when the local copy is real.  The sense of the predicate is the
opposite of the claim's. -/
theorem is_ghost_for_local_particle_counterexample :
    is_ghost_for_local_particle (fun _ => true)
      ⟨3, 0, 0, false, true, ⟨false, 0, 0, 0, 1⟩, 0, 0⟩ = false ∧
    is_ghost_for_local_particle (fun _ => false)
      ⟨3, 0, 0, false, true, ⟨false, 0, 0, 0, 1⟩, 0, 0⟩ = true := by
  exact ⟨rfl, rfl⟩

/-- Claim C3 as amended: `is_ghost_for_local_particle(p)` returns true
exactly when the local copy of `p`'s identity on this rank is NOT a ghost
(this rank owns the identity as real), and `should_be_coupled` admits a
particle iff it is not a ghost duplicate of a particle this rank already
owns as real — i.e. it rejects `p` exactly when `p` is a ghost and the
local copy of its identity is real. -/
theorem is_ghost_for_local_particle_amended (lig : ℕ → Bool) (p : Particle) :
    (is_ghost_for_local_particle lig p = true ↔ lig p.id = false) ∧
    (should_be_coupled lig p = false ↔
      p.ghost = true ∧ lig p.id = false) := by
  cases h : lig p.id <;> cases hg : p.ghost <;>
    simp [is_ghost_for_local_particle, should_be_coupled, h, hg]

/-- The mixed word is a 64-bit value. -/
theorem rng_mix_lt (n : ℕ) : rng_mix n < 2 ^ 64 :=
  Nat.mod_lt _ (by norm_num)

/-- Reducing a mixed word mod `2⁶⁴` is the identity. -/
theorem rng_mix_mod (n : ℕ) : rng_mix n % 2 ^ 64 = rng_mix n :=
  Nat.mod_eq_of_lt (rng_mix_lt n)

/-- The mixing map is injective on 64-bit residues (the multiplier is odd,
hence coprime to `2⁶⁴`). -/
theorem rng_mix_mod_cancel (a b : ℕ) (h : rng_mix a = rng_mix b) :
    a % 2 ^ 64 = b % 2 ^ 64 := by
  have h1 : (a * 6364136223846793005 + 1442695040888963407) % 2 ^ 64 =
      (b * 6364136223846793005 + 1442695040888963407) % 2 ^ 64 := h
  have h2 : a * 6364136223846793005 ≡ b * 6364136223846793005 [MOD 2 ^ 64] :=
    Nat.ModEq.add_right_cancel' 1442695040888963407 h1
  exact Nat.ModEq.cancel_right_of_coprime (by norm_num) h2

/-- Distinct 64-bit residues stay distinct through one mixing round. -/
theorem rng_mix_step (a b : ℕ) (h : a % 2 ^ 64 ≠ b % 2 ^ 64) :
    rng_mix a % 2 ^ 64 ≠ rng_mix b % 2 ^ 64 := by
  intro he
  rw [rng_mix_mod, rng_mix_mod] at he
  exact h (rng_mix_mod_cancel _ _ he)

/-- Distinct 64-bit residues stay distinct after adding a common left
summand. -/
theorem rng_add_left_step (u a b : ℕ) (h : a % 2 ^ 64 ≠ b % 2 ^ 64) :
    (u + a) % 2 ^ 64 ≠ (u + b) % 2 ^ 64 := by
  intro he
  exact h (Nat.ModEq.add_left_cancel' u he)

/-- Distinct 64-bit residues stay distinct after adding a common right
summand. -/
theorem rng_add_right_step (p a b : ℕ) (h : a % 2 ^ 64 ≠ b % 2 ^ 64) :
    (a + p) % 2 ^ 64 ≠ (b + p) % 2 ^ 64 := by
  intro he
  exact h (Nat.ModEq.add_right_cancel' p he)

/-- Output words for sub-keys that differ as 64-bit values are distinct,
for every counter, particle id and lane. -/
theorem rng_word_sub_key_ne (c p lane s s' : ℕ)
    (hs : s % 2 ^ 64 ≠ s' % 2 ^ 64) :
    rng_word c s p lane ≠ rng_word c s' p lane := by
  intro he
  unfold rng_word at he
  have h1 := rng_add_left_step (rng_mix (c % 2 ^ 64)) s s' hs
  have h2 := rng_mix_step _ _ h1
  have h3 := rng_add_right_step p _ _ h2
  have h4 := rng_mix_step _ _ h3
  have h5 := rng_add_right_step lane _ _ h4
  have h6 := rng_mix_step _ _ h5
  exact h6 (congrArg (fun n => n % 2 ^ 64) he)

/-- Claim C6: the noise source is a pure function of
(counter, sub-key, particle-id) — in the embedding it is literally a
function, so two requests with identical inputs are identical — and for
the same counter and particle id, distinct sub-keys (distinct as 64-bit
values, e.g. 1 versus 4) give different noise vectors. -/
theorem noise_pure_and_channels_distinct (c pid s s' : ℕ)
    (hs : s % 2 ^ 64 ≠ s' % 2 ^ 64) :
    noise_uniform c s pid = noise_uniform c s pid ∧
    noise_uniform c s pid ≠ noise_uniform c s' pid := by
  refine ⟨rfl, ?_⟩
  intro he
  have hx := congrArg Vec3.x he
  simp only [noise_uniform] at hx
  have h2 : (rng_word c s pid 0 : ℚ) / 2 ^ 64 =
      (rng_word c s' pid 0 : ℚ) / 2 ^ 64 := sub_left_inj.mp hx
  have h1 : (rng_word c s pid 0 : ℚ) = (rng_word c s' pid 0 : ℚ) := by
    have h3 := congrArg (fun q : ℚ => q * 2 ^ 64) h2
    simp only [div_mul_cancel₀, ne_eq, OfNat.ofNat_ne_zero, pow_eq_zero_iff,
      not_false_eq_true] at h3
    exact h3
  exact rng_word_sub_key_ne c pid 0 s s' hs (Nat.cast_injective h1)

/-- Witness for claim C6 at counter 17, particle id 0, sub-keys 1 and 4
(the pair exercised by the `rng` test case). -/
theorem noise_pure_and_channels_distinct_witness :
    noise_uniform 17 1 0 ≠ noise_uniform 17 4 0 :=
  (noise_pure_and_channels_distinct 17 0 1 4 (by decide)).2

/-- The 27 shift triples written out in iteration order. -/
theorem shift_triples_eq :
    shift_triples =
    [⟨-1, -1, -1⟩, ⟨-1, -1, 0⟩, ⟨-1, -1, 1⟩,
     ⟨-1, 0, -1⟩, ⟨-1, 0, 0⟩, ⟨-1, 0, 1⟩,
     ⟨-1, 1, -1⟩, ⟨-1, 1, 0⟩, ⟨-1, 1, 1⟩,
     ⟨0, -1, -1⟩, ⟨0, -1, 0⟩, ⟨0, -1, 1⟩,
     ⟨0, 0, -1⟩, ⟨0, 0, 0⟩, ⟨0, 0, 1⟩,
     ⟨0, 1, -1⟩, ⟨0, 1, 0⟩, ⟨0, 1, 1⟩,
     ⟨1, -1, -1⟩, ⟨1, -1, 0⟩, ⟨1, -1, 1⟩,
     ⟨1, 0, -1⟩, ⟨1, 0, 0⟩, ⟨1, 0, 1⟩,
     ⟨1, 1, -1⟩, ⟨1, 1, 0⟩, ⟨1, 1, 1⟩] := rfl

/-- The displacement of a shifted candidate from the original position, per
component: the box length times the shift factor. -/
theorem shift_pos_sub_get (pos L : Vec3) (s : Shift3) (n : Fin 3) :
    (shift_pos pos L s - pos).get n = L.get n * ((s.get n : ℤ) : ℚ) := by
  fin_cases n <;>
    simp [shift_pos, Vec3.hadamard, Vec3.get, Shift3.get, Vec3.add_def,
      Vec3.sub_def]

/-- The source's sequential epsilon tests coincide with the amended
claim-side three-way candidate. -/
theorem lees_edwards_correction_eq_eps (box : BoxGeometry) (pos : Vec3)
    (s : Shift3) :
    lees_edwards_correction box pos (shift_pos pos box.length s) =
      claimed_candidate_eps box pos s := by
  obtain ⟨L, ty, lebc⟩ := box
  cases ty
  · rfl
  · simp only [lees_edwards_correction, claimed_candidate_eps]
    rw [shift_pos_sub_get]
    have heps : (0 : ℚ) < double_epsilon := by norm_num [double_epsilon]
    split_ifs with h1 h2 h3 _h4 <;> first
      | rfl
      | (exfalso; linarith)

/-- Counterexample to claim C7: in a Lees-Edwards box whose length along
the shear plane normal is `2⁻⁵³` (nonzero but below machine epsilon), the
claim's "adjust whenever the shift along the normal axis is nonzero" rule
adjusts the shear coordinate, but the source compares the displacement
against `std::numeric_limits<double>::epsilon()` and does not adjust, so
the two enumerations differ. -/
theorem positions_in_halo_counterexample :
    positions_in_halo ⟨⟨-100, -100, -100⟩, ⟨100, 100, 100⟩⟩ 0 ⟨0, 0, 0⟩
        ⟨⟨1 / 2 ^ 53, 1, 1⟩, BoxType.lees_edwards, ⟨1, 0, 1⟩⟩ ≠
      claimed_positions_in_halo ⟨⟨-100, -100, -100⟩, ⟨100, 100, 100⟩⟩ 0
        ⟨0, 0, 0⟩ ⟨⟨1 / 2 ^ 53, 1, 1⟩, BoxType.lees_edwards, ⟨1, 0, 1⟩⟩ := by
  have h1 : (positions_in_halo ⟨⟨-100, -100, -100⟩, ⟨100, 100, 100⟩⟩ 0
      ⟨0, 0, 0⟩ ⟨⟨1 / 2 ^ 53, 1, 1⟩, BoxType.lees_edwards, ⟨1, 0, 1⟩⟩).head? =
      some ⟨-(1 / 2 ^ 53), -1, -1⟩ := by
    norm_num [positions_in_halo, shift_triples_eq, lees_edwards_correction,
      shift_pos, Vec3.hadamard, Vec3.add_def, Vec3.sub_def, Vec3.get, Vec3.set,
      in_local_halo, in_local_domain, double_epsilon, List.filter]
  have h2 : (claimed_positions_in_halo ⟨⟨-100, -100, -100⟩, ⟨100, 100, 100⟩⟩ 0
      ⟨0, 0, 0⟩ ⟨⟨1 / 2 ^ 53, 1, 1⟩, BoxType.lees_edwards, ⟨1, 0, 1⟩⟩).head? =
      some ⟨-(1 / 2 ^ 53), -2, -1⟩ := by
    norm_num [claimed_positions_in_halo, claimed_candidate, shift_triples_eq,
      shift_pos, Vec3.hadamard, Vec3.add_def, Vec3.sub_def, Vec3.get, Vec3.set,
      Shift3.get, in_local_halo, in_local_domain, List.filter]
  intro h
  rw [h, h2] at h1
  simp only [Option.some.injEq, Vec3.mk.injEq] at h1
  norm_num at h1

/-- Claim C7 as amended: `positions_in_halo` enumerates the 27 shift
combinations in the fixed nested order x, y, z with factors `-1, 0, 1`,
adjusts the shear-direction coordinate by the accumulated position offset
(sign matching the shift direction) for every candidate whose shift along
the shear-plane-normal axis exceeds machine epsilon (`2⁻⁵²`) in magnitude,
and returns exactly the corrected candidates satisfying `in_local_halo`,
in that order. -/
theorem positions_in_halo_amended (lg : LocalGeo) (agrid : ℚ) (pos : Vec3)
    (box : BoxGeometry) :
    positions_in_halo lg agrid pos box =
      claimed_positions_in_halo_eps lg agrid pos box := by
  unfold positions_in_halo claimed_positions_in_halo_eps
  have hf : (fun s => lees_edwards_correction box pos
      (shift_pos pos box.length s)) =
        fun s => claimed_candidate_eps box pos s :=
    funext (lees_edwards_correction_eq_eps box pos)
  rw [hf]

/-- When the counter is seeded (or no noise is needed), `get_noise_term`
succeeds and returns `noise_value`. -/
theorem get_noise_term_ok (pc : ParticleCoupling)
    (cfg : ParticleCouplingConfig) (pid : ℕ)
    (hseed : pc.m_thermalized = true → cfg.rng_counter_coupling.isSome = true) :
    get_noise_term pc cfg pid = Except.ok (noise_value pc cfg pid) := by
  cases hth : pc.m_thermalized with
  | false => simp [get_noise_term, noise_value, hth]
  | true =>
    obtain ⟨c, hc⟩ := Option.isSome_iff_exists.mp (hseed hth)
    simp [get_noise_term, noise_value, hth, hc]

/-- When the counter is seeded (or no noise is needed), the kernel's
coupling force computation succeeds and returns `coupling_force_value`. -/
theorem coupling_force_result_ok (ctx : CouplingContext)
    (pc : ParticleCoupling) (p : Particle)
    (hseed : pc.m_thermalized = true →
      ctx.cfg.rng_counter_coupling.isSome = true) :
    coupling_force_result ctx pc p =
      Except.ok (coupling_force_value ctx pc p) := by
  unfold coupling_force_result coupling_force_value
  cases hf : (positions_in_halo ctx.lg ctx.agrid p.pos ctx.box).find?
      (fun pos => in_local_halo ctx.lg ctx.agrid pos) with
  | none => rfl
  | some pos => rw [get_noise_term_ok pc ctx.cfg p.id hseed]; rfl

/-- Explicit form of a non-skipped kernel call with a usable noise source:
the particle force increment is the fold over the in-halo images gated by
`in_local_domain`, the fluid deposits are one per in-halo image, and the
swimmer deposits follow. -/
theorem kernel_ok (ctx : CouplingContext) (pc : ParticleCoupling)
    (p : Particle) (hskip : (p.is_virtual && !pc.m_couple_virtual) = false)
    (hseed : pc.m_thermalized = true →
      ctx.cfg.rng_counter_coupling.isSome = true) :
    kernel ctx pc p = Except.ok
      ⟨(positions_in_halo ctx.lg ctx.agrid p.pos ctx.box).foldl
          (fun acc pos => if in_local_domain ctx.lg pos 0 then
            acc + coupling_force_value ctx pc p else acc) 0,
        (positions_in_halo ctx.lg ctx.agrid p.pos ctx.box).map
          (fun pos => (pos, coupling_force_value ctx pc p)),
        add_swimmer_force_calls ctx p⟩ := by
  unfold kernel
  rw [coupling_force_result_ok ctx pc p hseed]
  simp [hskip, Except.map]

/-- Counterexample to claim C2: a particle at `(-1/5, 1, 1)` just outside
the local domain `[0,8)³` (agrid 1, cubic box of length 8) has two periodic
images in the local halo, `(-1/5, 1, 1)` and `(39/5, 1, 1)`; the kernel
deposits the coupling force at BOTH positions even though `(-1/5, 1, 1)`
is not inside the local domain — the source's injection loop filters by
`in_local_halo` (through `positions_in_halo`), not by `in_local_domain`. -/
theorem kernel_injection_counterexample :
    (kernel ⟨⟨⟨8, 8, 8⟩, BoxType.cuboid, ⟨0, 0, 0⟩⟩, ⟨⟨0, 0, 0⟩, ⟨8, 8, 8⟩⟩,
        1, 1, fun _ => 0, ⟨true, 1/5, some 17⟩⟩ ⟨false, 1/100, false, 0⟩
        ⟨0, ⟨-1/5, 1, 1⟩, 0, false, false, ⟨false, 0, 0, 0, 1⟩, 0, 0⟩).map
      (fun o => o.injections.map Prod.fst) =
      Except.ok [⟨-1/5, 1, 1⟩, ⟨39/5, 1, 1⟩] ∧
    in_local_domain ⟨⟨0, 0, 0⟩, ⟨8, 8, 8⟩⟩ ⟨-1/5, 1, 1⟩ 0 = false := by
  have hpos : positions_in_halo ⟨⟨0, 0, 0⟩, ⟨8, 8, 8⟩⟩ 1 ⟨-1/5, 1, 1⟩
      ⟨⟨8, 8, 8⟩, BoxType.cuboid, ⟨0, 0, 0⟩⟩ =
      [⟨-1/5, 1, 1⟩, ⟨39/5, 1, 1⟩] := by
    norm_num [positions_in_halo, shift_triples_eq, lees_edwards_correction,
      shift_pos, Vec3.hadamard, Vec3.add_def, in_local_halo, in_local_domain,
      List.filter]
  constructor
  · rw [kernel_ok ⟨⟨⟨8, 8, 8⟩, BoxType.cuboid, ⟨0, 0, 0⟩⟩,
      ⟨⟨0, 0, 0⟩, ⟨8, 8, 8⟩⟩, 1, 1, fun _ => 0, ⟨true, 1/5, some 17⟩⟩
      ⟨false, 1/100, false, 0⟩
      ⟨0, ⟨-1/5, 1, 1⟩, 0, false, false, ⟨false, 0, 0, 0, 1⟩, 0, 0⟩ rfl
      (fun h => nomatch h)]
    simp [hpos, Except.map]
  · norm_num [in_local_domain]

/-- Claim C2 as amended: for every particle the kernel processes, the
coupling force is deposited into the fluid once per periodic image of the
particle's position landing in the LOCAL HALO (the list produced by
`positions_in_halo`) and at no other position; the in-local-domain test
gates only the force added to the particle itself, not the fluid
injection. -/
theorem kernel_injection_amended (ctx : CouplingContext)
    (pc : ParticleCoupling) (p : Particle)
    (hskip : (p.is_virtual && !pc.m_couple_virtual) = false)
    (hseed : pc.m_thermalized = true →
      ctx.cfg.rng_counter_coupling.isSome = true) :
    (kernel ctx pc p).map (fun o => o.injections) =
      Except.ok ((positions_in_halo ctx.lg ctx.agrid p.pos ctx.box).map
        (fun pos => (pos, coupling_force_value ctx pc p))) := by
  rw [kernel_ok ctx pc p hskip hseed]
  rfl

/-- Witness for the amended claim C2 at a concrete non-skipped particle
with an unthermalized coupling. -/
theorem kernel_injection_amended_witness :
    (kernel ⟨⟨⟨8, 8, 8⟩, BoxType.cuboid, ⟨0, 0, 0⟩⟩, ⟨⟨0, 0, 0⟩, ⟨8, 8, 8⟩⟩,
        1, 1, fun _ => 0, ⟨true, 1/5, some 17⟩⟩ ⟨false, 1/100, false, 0⟩
        ⟨0, ⟨1, 2, 3⟩, 0, false, false, ⟨false, 0, 0, 0, 1⟩, 0, 0⟩).map
      (fun o => o.injections) =
      Except.ok ((positions_in_halo ⟨⟨0, 0, 0⟩, ⟨8, 8, 8⟩⟩ 1 ⟨1, 2, 3⟩
        ⟨⟨8, 8, 8⟩, BoxType.cuboid, ⟨0, 0, 0⟩⟩).map
        (fun pos => (pos, coupling_force_value
          ⟨⟨⟨8, 8, 8⟩, BoxType.cuboid, ⟨0, 0, 0⟩⟩, ⟨⟨0, 0, 0⟩, ⟨8, 8, 8⟩⟩,
            1, 1, fun _ => 0, ⟨true, 1/5, some 17⟩⟩ ⟨false, 1/100, false, 0⟩
          ⟨0, ⟨1, 2, 3⟩, 0, false, false, ⟨false, 0, 0, 0, 1⟩, 0, 0⟩))) :=
  kernel_injection_amended _ _ _ rfl (fun h => nomatch h)

/-- Scalar distribution over `Vec3` (used to collapse repeated additions of
the same coupling force). -/
theorem Vec3.add_smul' (q r : ℚ) (v : Vec3) :
    (q + r) • v = q • v + r • v := by
  simp only [Vec3.smul_def, Vec3.add_def, Vec3.mk.injEq]
  refine ⟨by ring, by ring, by ring⟩

theorem Vec3.zero_smul' (v : Vec3) : (0 : ℚ) • v = 0 := by
  simp [Vec3.smul_def, Vec3.zero_def]

theorem Vec3.one_smul' (v : Vec3) : (1 : ℚ) • v = v := by
  cases v; simp [Vec3.smul_def]

/-- A conditional accumulation of a fixed vector equals the starting value
plus the number of hits times the vector. -/
theorem foldl_if_count (l : List Vec3) (P : Vec3 → Bool) (cf a : Vec3) :
    l.foldl (fun acc pos => if P pos then acc + cf else acc) a =
      a + ((l.countP P : ℚ)) • cf := by
  induction l generalizing a with
  | nil => simp [Vec3.zero_smul', Vec3.add_zero']
  | cons hd tl ih =>
    cases hP : P hd with
    | false =>
      rw [List.foldl_cons, List.countP_cons]
      simp only [hP, if_false, cond_false]
      rw [ih]
      norm_num
    | true =>
      rw [List.foldl_cons, List.countP_cons]
      simp only [hP, if_true, cond_true]
      rw [ih]
      have hc : ((tl.countP P + 1 : ℕ) : ℚ) = (tl.countP P : ℚ) + 1 := by
        push_cast
        ring
      rw [hc, Vec3.add_smul', Vec3.one_smul']
      cases a; cases cf
      simp only [Vec3.add_def, Vec3.smul_def, Vec3.mk.injEq]
      refine ⟨by ring, by ring, by ring⟩

/-- A list without duplicates holding exactly one element satisfying `P`
counts one hit for `P`. -/
theorem countP_eq_one_of_nodup (l : List Shift3) (hl : l.Nodup) (a : Shift3)
    (ha : a ∈ l) (P : Shift3 → Bool) (hP : ∀ x ∈ l, P x = true ↔ x = a) :
    l.countP P = 1 := by
  induction l with
  | nil => cases ha
  | cons hd tl ih =>
    rw [List.countP_cons]
    have hnd := List.nodup_cons.mp hl
    rcases List.mem_cons.mp ha with heq | hmem
    · subst heq
      have hhd : P a = true := (hP a (List.mem_cons_self a tl)).mpr rfl
      have htl : tl.countP P = 0 := by
        rw [List.countP_eq_zero]
        intro x hx hPx
        have hxa := (hP x (List.mem_cons_of_mem a hx)).mp hPx
        subst hxa
        exact hnd.1 hx
      simp [hhd, htl]
    · cases hPhd : P hd with
      | true =>
        exfalso
        have hda := (hP hd (List.mem_cons_self hd tl)).mp hPhd
        exact hnd.1 (by rw [hda]; exact hmem)
      | false =>
        have htl := ih hnd.2 hmem
          (fun x hx => hP x (List.mem_cons_of_mem hd hx))
        simp [hPhd, htl]

/-- Membership in the 27 shift triples is exactly "every component is a
factor in `{-1, 0, 1}`". -/
theorem mem_shift_triples (s : Shift3) :
    s ∈ shift_triples ↔
      (s.sx = -1 ∨ s.sx = 0 ∨ s.sx = 1) ∧
      (s.sy = -1 ∨ s.sy = 0 ∨ s.sy = 1) ∧
      (s.sz = -1 ∨ s.sz = 0 ∨ s.sz = 1) := by
  cases s with
  | mk i j k =>
    constructor
    · intro h
      simp only [shift_triples, shift_range, List.mem_flatMap, List.mem_map,
        List.mem_cons, List.not_mem_nil, or_false] at h
      obtain ⟨i', hi', j', hj', k', hk', heq⟩ := h
      obtain ⟨rfl, rfl, rfl⟩ : i' = i ∧ j' = j ∧ k' = k := by
        injection heq with h1 h2 h3
        exact ⟨h1, h2, h3⟩
      exact ⟨hi', hj', hk'⟩
    · rintro ⟨hi, hj, hk⟩
      simp only [shift_triples, shift_range, List.mem_flatMap, List.mem_map,
        List.mem_cons, List.not_mem_nil, or_false]
      exact ⟨i, hi, j, hj, k, hk, rfl⟩

/-- The 27 shift triples are pairwise distinct. -/
theorem shift_triples_nodup : shift_triples.Nodup := by decide

/-- The negation of a shift triple is again a shift triple. -/
theorem neg_mem_shift_triples (s : Shift3) (hs : s ∈ shift_triples) :
    s.neg ∈ shift_triples := by
  rw [mem_shift_triples] at hs ⊢
  obtain ⟨hi, hj, hk⟩ := hs
  unfold Shift3.neg
  refine ⟨?_, ?_, ?_⟩
  · rcases hi with h | h | h <;> simp [h]
  · rcases hj with h | h | h <;> simp [h]
  · rcases hk with h | h | h <;> simp [h]

/-- Two successive shifts compose into the component-wise summed shift. -/
theorem shift_pos_shift_pos (f L : Vec3) (t s : Shift3) :
    shift_pos (shift_pos f L t) L s = shift_pos f L (t.add s) := by
  simp only [shift_pos, Shift3.add, Vec3.hadamard, Vec3.add_def,
    Vec3.mk.injEq]
  push_cast
  refine ⟨by ring, by ring, by ring⟩

/-- Shifting by the zero triple is the identity. -/
theorem shift_pos_zero (f L : Vec3) : shift_pos f L ⟨0, 0, 0⟩ = f := by
  cases f
  simp [shift_pos, Vec3.hadamard, Vec3.add_def]

/-- A coordinate in `[0, L)` shifted by an integer multiple of `L` lands in
`[0, L)` again only for the zero multiple. -/
theorem shift_multiple_zero (a L : ℚ) (m : ℤ) (h0 : 0 ≤ a) (h1 : a < L)
    (_hL : 0 < L) (h2 : 0 ≤ a + L * m) (h3 : a + L * m < L) : m = 0 := by
  rcases lt_trichotomy m 0 with hm | hm | hm
  · exfalso
    have hm0 : m ≤ -1 := by omega
    have hm1 : (m : ℚ) ≤ -1 := by exact_mod_cast hm0
    nlinarith
  · exact hm
  · exfalso
    have hm1 : (1 : ℚ) ≤ (m : ℚ) := by exact_mod_cast hm
    nlinarith

/-- A position in the local domain (halo `0`) is also in the local halo for
any nonnegative lattice spacing. -/
theorem in_local_domain_imp_halo (lg : LocalGeo) (agrid : ℚ) (v : Vec3)
    (hagrid : 0 ≤ agrid) (h : in_local_domain lg v 0 = true) :
    in_local_halo lg agrid v = true := by
  simp only [in_local_domain, in_local_halo, Bool.and_eq_true,
    decide_eq_true_eq] at h ⊢
  obtain ⟨⟨⟨hx1, hx2⟩, hy1, hy2⟩, hz1, hz2⟩ := h
  refine ⟨⟨⟨?_, ?_⟩, ?_, ?_⟩, ?_, ?_⟩ <;> linarith

/-- In a cuboid box the Lees-Edwards correction is the identity, so the
enumerator is the filtered list of the 27 plainly shifted candidates. -/
theorem positions_in_halo_cuboid (lg : LocalGeo) (agrid : ℚ) (pos : Vec3)
    (box : BoxGeometry) (hcube : box.type = BoxType.cuboid) :
    positions_in_halo lg agrid pos box =
      (shift_triples.map fun s => shift_pos pos box.length s).filter
        (fun v => in_local_halo lg agrid v) := by
  obtain ⟨L, ty, lebc⟩ := box
  simp only at hcube
  subst hcube
  rfl

/-- The x component of a shifted position. -/
theorem shift_pos_x (f L : Vec3) (u : Shift3) :
    (shift_pos f L u).x = f.x + L.x * (u.sx : ℚ) := rfl

/-- The y component of a shifted position. -/
theorem shift_pos_y (f L : Vec3) (u : Shift3) :
    (shift_pos f L u).y = f.y + L.y * (u.sy : ℚ) := rfl

/-- The z component of a shifted position. -/
theorem shift_pos_z (f L : Vec3) (u : Shift3) :
    (shift_pos f L u).z = f.z + L.z * (u.sz : ℚ) := rfl

/-- Key single-counting step: among the in-halo periodic images of any
fold-image `shift_pos f L t` of a folded position `f`, exactly one (the
fold-back image, landing at `f` itself) lies in the local domain when the
rank owns `f`, and none does otherwise. -/
theorem countP_in_domain (lg : LocalGeo) (agrid : ℚ) (box : BoxGeometry)
    (f : Vec3) (t : Shift3) (hcube : box.type = BoxType.cuboid)
    (hL : 0 < box.length.x ∧ 0 < box.length.y ∧ 0 < box.length.z)
    (hagrid : 0 ≤ agrid) (hf : inside_box box.length f)
    (hsub : ∀ v, in_local_domain lg v 0 = true → inside_box box.length v)
    (ht : t ∈ shift_triples) :
    (positions_in_halo lg agrid (shift_pos f box.length t) box).countP
        (fun v => in_local_domain lg v 0) =
      if in_local_domain lg f 0 = true then 1 else 0 := by
  have key : ∀ s ∈ shift_triples,
      in_local_domain lg (shift_pos (shift_pos f box.length t) box.length s)
        0 = true →
      s = t.neg ∧ in_local_domain lg f 0 = true := by
    intro s _ hdm
    rw [shift_pos_shift_pos] at hdm
    have hv := hsub _ hdm
    obtain ⟨⟨hvx1, hvx2⟩, ⟨hvy1, hvy2⟩, hvz1, hvz2⟩ := hv
    obtain ⟨⟨hfx1, hfx2⟩, ⟨hfy1, hfy2⟩, hfz1, hfz2⟩ := hf
    rw [shift_pos_x] at hvx1 hvx2
    rw [shift_pos_y] at hvy1 hvy2
    rw [shift_pos_z] at hvz1 hvz2
    simp only [Shift3.add] at hvx1 hvx2 hvy1 hvy2 hvz1 hvz2
    have hx0 : t.sx + s.sx = 0 := by
      have := shift_multiple_zero f.x box.length.x (t.sx + s.sx) hfx1 hfx2
        hL.1 (by push_cast at hvx1 ⊢; linarith) (by push_cast at hvx2 ⊢; linarith)
      exact this
    have hy0 : t.sy + s.sy = 0 := by
      exact shift_multiple_zero f.y box.length.y (t.sy + s.sy) hfy1 hfy2
        hL.2.1 (by push_cast at hvy1 ⊢; linarith) (by push_cast at hvy2 ⊢; linarith)
    have hz0 : t.sz + s.sz = 0 := by
      exact shift_multiple_zero f.z box.length.z (t.sz + s.sz) hfz1 hfz2
        hL.2.2 (by push_cast at hvz1 ⊢; linarith) (by push_cast at hvz2 ⊢; linarith)
    have hs_eq : s = t.neg := by
      cases s; cases t
      simp only [Shift3.neg, Shift3.mk.injEq]
      simp only [Shift3.add] at hx0 hy0 hz0
      omega
    refine ⟨hs_eq, ?_⟩
    have hts : t.add s = ⟨0, 0, 0⟩ := by
      cases s; cases t
      simp only [Shift3.add, Shift3.mk.injEq]
      simp only [Shift3.add] at hx0 hy0 hz0
      omega
    rw [hts, shift_pos_zero] at hdm
    exact hdm
  have himage : shift_pos (shift_pos f box.length t) box.length t.neg = f := by
    rw [shift_pos_shift_pos]
    have hts : t.add t.neg = ⟨0, 0, 0⟩ := by
      cases t
      simp [Shift3.add, Shift3.neg]
    rw [hts, shift_pos_zero]
  rw [positions_in_halo_cuboid lg agrid _ box hcube]
  rw [List.countP_filter, List.countP_map]
  by_cases hdom : in_local_domain lg f 0 = true
  · rw [if_pos hdom]
    apply countP_eq_one_of_nodup shift_triples shift_triples_nodup t.neg
      (neg_mem_shift_triples t ht)
    intro s hs
    simp only [Function.comp_apply, Bool.and_eq_true]
    constructor
    · rintro ⟨hd, _⟩
      exact (key s hs hd).1
    · rintro rfl
      rw [himage]
      exact ⟨hdom, in_local_domain_imp_halo lg agrid f hagrid hdom⟩
  · rw [if_neg hdom]
    rw [List.countP_eq_zero]
    intro s hs hP
    simp only [Function.comp_apply, Bool.and_eq_true] at hP
    exact hdom (key s hs hP.1).2

/-- The particle-force component of a non-skipped kernel call: the number
of in-domain in-halo images times the coupling force. -/
theorem kernel_force_delta (ctx : CouplingContext) (pc : ParticleCoupling)
    (p : Particle) (hskip : (p.is_virtual && !pc.m_couple_virtual) = false)
    (hseed : pc.m_thermalized = true →
      ctx.cfg.rng_counter_coupling.isSome = true) :
    kernel ctx pc p = Except.ok
      ⟨(((positions_in_halo ctx.lg ctx.agrid p.pos ctx.box).countP
            (fun v => in_local_domain ctx.lg v 0) : ℕ) : ℚ) •
          coupling_force_value ctx pc p,
        (positions_in_halo ctx.lg ctx.agrid p.pos ctx.box).map
          (fun pos => (pos, coupling_force_value ctx pc p)),
        add_swimmer_force_calls ctx p⟩ := by
  rw [kernel_ok ctx pc p hskip hseed]
  rw [foldl_if_count, Vec3.zero_add']

/-- An `Except`-fold whose steps leave the accumulator unchanged returns
the accumulator. -/
theorem foldlM_const {α : Type} (step : Vec3 → α → Except String Vec3)
    (l : List α) (h : ∀ p ∈ l, ∀ acc, step acc p = Except.ok acc) :
    ∀ acc, l.foldlM step acc = Except.ok acc := by
  induction l with
  | nil => intro acc; rfl
  | cons p l ih =>
    intro acc
    rw [List.foldlM_cons, h p (List.mem_cons_self p l) acc]
    exact ih (fun q hq => h q (List.mem_cons_of_mem p hq)) acc

/-- An `Except`-fold that adds `cf` exactly at the unique non-ghost element
and leaves the accumulator unchanged at ghosts returns `acc + cf`. -/
theorem foldlM_owner (step : Vec3 → Particle → Except String Vec3)
    (l : List Particle) (preal : Particle) (cf : Vec3)
    (hgh : ∀ p ∈ l, p.ghost = true → ∀ acc, step acc p = Except.ok acc)
    (hre : ∀ p ∈ l, p.ghost = false → ∀ acc,
      step acc p = Except.ok (acc + cf))
    (hfilter : l.filter (fun p => !p.ghost) = [preal]) :
    ∀ acc, l.foldlM step acc = Except.ok (acc + cf) := by
  induction l with
  | nil => simp at hfilter
  | cons p l ih =>
    intro acc
    cases hg : p.ghost with
    | true =>
      rw [List.foldlM_cons, hgh p (List.mem_cons_self p l) hg acc]
      have hfilter' : l.filter (fun q => !q.ghost) = [preal] := by
        rw [List.filter_cons] at hfilter
        simpa [hg] using hfilter
      exact ih (fun q hq => hgh q (List.mem_cons_of_mem p hq))
        (fun q hq => hre q (List.mem_cons_of_mem p hq)) hfilter' acc
    | false =>
      rw [List.foldlM_cons, hre p (List.mem_cons_self p l) hg acc]
      have hsplit : p = preal ∧ l.filter (fun q => !q.ghost) = [] := by
        rw [List.filter_cons] at hfilter
        simpa [hg] using hfilter
      have hall : ∀ q ∈ l, q.ghost = true := by
        intro q hq
        by_contra hqg
        have hq' : q ∈ l.filter (fun q => !q.ghost) :=
          List.mem_filter.mpr ⟨hq, by simp [Bool.not_eq_true] at hqg; simp [hqg]⟩
        rw [hsplit.2] at hq'
        cases hq'
      exact foldlM_const step l
        (fun q hq acc' => hgh q (List.mem_cons_of_mem p hq) (hall q hq) acc')
        (acc + cf)

/-- A rank whose local domain does not contain the folded position adds no
force to the particle identity: every admitted copy's kernel call finds no
in-domain image (its force accumulation count is zero), and rejected
copies add nothing. -/
theorem couple_rank_not_owner (ls : ActiveLB) (box : BoxGeometry)
    (agrid lattice_speed : ℚ) (cfg : ParticleCouplingConfig)
    (pc : ParticleCoupling) (r : RankView) (f : Vec3)
    (hls : ls = ActiveLB.walberla) (hmd : cfg.couple_to_md = true)
    (hcube : box.type = BoxType.cuboid)
    (hL : 0 < box.length.x ∧ 0 < box.length.y ∧ 0 < box.length.z)
    (hagrid : 0 ≤ agrid) (hf : inside_box box.length f)
    (hsub : ∀ v, in_local_domain r.lg v 0 = true → inside_box box.length v)
    (hseed : pc.m_thermalized = true → cfg.rng_counter_coupling.isSome = true)
    (hdom : in_local_domain r.lg f 0 = false)
    (hcop : ∀ p ∈ r.copies, (p.is_virtual && !pc.m_couple_virtual) = false ∧
      ∃ t ∈ shift_triples, p.pos = shift_pos f box.length t) :
    couple_particles_rank ls box agrid lattice_speed cfg pc r =
      Except.ok 0 := by
  unfold couple_particles_rank
  subst hls
  have hcond : (decide (ActiveLB.walberla = ActiveLB.walberla) &&
      cfg.couple_to_md) = true := by simp [hmd]
  rw [if_pos hcond]
  apply foldlM_const _ r.copies
  intro p hp acc
  obtain ⟨hskip, t, ht, hpos⟩ := hcop p hp
  cases hsb : should_be_coupled r.local_is_ghost p with
  | false =>
    rw [if_neg (by simp [hsb])]
    rfl
  | true =>
    rw [if_pos rfl]
    rw [kernel_force_delta (rank_context box agrid lattice_speed cfg r) pc p
      hskip hseed]
    have hcount : (positions_in_halo
        (rank_context box agrid lattice_speed cfg r).lg
        (rank_context box agrid lattice_speed cfg r).agrid p.pos
        (rank_context box agrid lattice_speed cfg r).box).countP
        (fun v => in_local_domain
          (rank_context box agrid lattice_speed cfg r).lg v 0) = 0 := by
      show (positions_in_halo r.lg agrid p.pos box).countP
        (fun v => in_local_domain r.lg v 0) = 0
      rw [hpos, countP_in_domain r.lg agrid box f t hcube hL hagrid hf hsub ht,
        if_neg]
      rw [hdom]
      simp
    rw [hcount]
    simp only [Except.map]
    rw [Nat.cast_zero, Vec3.zero_smul', Vec3.add_zero']

/-- The rank owning the folded position `f` adds the coupling force to the
particle identity exactly once: its unique real copy is admitted and has
exactly one image in the domain, while its ghost duplicates are rejected
by the bookkeeping (the rank owns the identity as real). -/
theorem couple_rank_owner (ls : ActiveLB) (box : BoxGeometry)
    (agrid lattice_speed : ℚ) (cfg : ParticleCouplingConfig)
    (pc : ParticleCoupling) (r : RankView) (f : Vec3) (preal : Particle)
    (pid : ℕ)
    (hls : ls = ActiveLB.walberla) (hmd : cfg.couple_to_md = true)
    (hcube : box.type = BoxType.cuboid)
    (hL : 0 < box.length.x ∧ 0 < box.length.y ∧ 0 < box.length.z)
    (hagrid : 0 ≤ agrid) (hf : inside_box box.length f)
    (hsub : ∀ v, in_local_domain r.lg v 0 = true → inside_box box.length v)
    (hseed : pc.m_thermalized = true → cfg.rng_counter_coupling.isSome = true)
    (hdom : in_local_domain r.lg f 0 = true)
    (hlig : r.local_is_ghost pid = false)
    (hid : ∀ p ∈ r.copies, p.id = pid)
    (hcop : ∀ p ∈ r.copies, (p.is_virtual && !pc.m_couple_virtual) = false ∧
      ∃ t ∈ shift_triples, p.pos = shift_pos f box.length t)
    (hfilter : r.copies.filter (fun p => !p.ghost) = [preal]) :
    couple_particles_rank ls box agrid lattice_speed cfg pc r =
      Except.ok (coupling_force_value
        (rank_context box agrid lattice_speed cfg r) pc preal) := by
  unfold couple_particles_rank
  subst hls
  have hcond : (decide (ActiveLB.walberla = ActiveLB.walberla) &&
      cfg.couple_to_md) = true := by simp [hmd]
  rw [if_pos hcond]
  have hgh : ∀ p ∈ r.copies, p.ghost = true → ∀ acc : Vec3,
      (if should_be_coupled r.local_is_ghost p = true then
        (kernel (rank_context box agrid lattice_speed cfg r) pc p).map
          (fun out => acc + out.force_delta)
      else pure acc) = Except.ok acc := by
    intro p hp hg acc
    have hsb : should_be_coupled r.local_is_ghost p = false := by
      simp [should_be_coupled, is_ghost_for_local_particle, hg, hid p hp, hlig]
    rw [if_neg (by simp [hsb])]
    rfl
  have hre : ∀ p ∈ r.copies, p.ghost = false → ∀ acc : Vec3,
      (if should_be_coupled r.local_is_ghost p = true then
        (kernel (rank_context box agrid lattice_speed cfg r) pc p).map
          (fun out => acc + out.force_delta)
      else pure acc) = Except.ok (acc + coupling_force_value
        (rank_context box agrid lattice_speed cfg r) pc preal) := by
    intro p hp hg acc
    have hpe : p = preal := by
      have hmem : p ∈ r.copies.filter (fun q => !q.ghost) :=
        List.mem_filter.mpr ⟨hp, by simp [hg]⟩
      rw [hfilter] at hmem
      simpa using hmem
    subst hpe
    have hsb : should_be_coupled r.local_is_ghost p = true := by
      simp [should_be_coupled, hg]
    rw [if_pos hsb]
    obtain ⟨hskip, t, ht, hpos⟩ := hcop p hp
    rw [kernel_force_delta (rank_context box agrid lattice_speed cfg r) pc p
      hskip hseed]
    have hcount : (positions_in_halo
        (rank_context box agrid lattice_speed cfg r).lg
        (rank_context box agrid lattice_speed cfg r).agrid p.pos
        (rank_context box agrid lattice_speed cfg r).box).countP
        (fun v => in_local_domain
          (rank_context box agrid lattice_speed cfg r).lg v 0) = 1 := by
      show (positions_in_halo r.lg agrid p.pos box).countP
        (fun v => in_local_domain r.lg v 0) = 1
      rw [hpos, countP_in_domain r.lg agrid box f t hcube hL hagrid hf hsub ht,
        if_pos hdom]
    rw [hcount]
    simp only [Except.map]
    rw [Nat.cast_one, Vec3.one_smul']
  rw [foldlM_owner _ r.copies preal
    (coupling_force_value (rank_context box agrid lattice_speed cfg r) pc preal)
    hgh hre hfilter 0, Vec3.zero_add']

/-- Searching a filtered list for the filter predicate returns its head:
the source's first loop (break at the first in-halo image) picks the head
of `positions_in_halo`. -/
theorem find?_filter_head (l : List Vec3) (P : Vec3 → Bool) :
    (l.filter P).find? P = (l.filter P).head? := by
  induction l with
  | nil => rfl
  | cons a l ih =>
    rw [List.filter_cons]
    cases hP : P a with
    | true => simp [List.find?_cons, hP]
    | false => simpa [hP] using ih

/-- Claim C1 (single-counting invariant): in one coupling step with the
lattice method active and coupling enabled, for a particle identity whose
folded position `f` lies in exactly one rank's local domain (`ro` — the
per-rank domains are sub-boxes of the global box `[0, L)³` and `f` is
covered exactly once, per the spec's Local Domain invariant), whose copies
on every rank are fold-images of `f` (real on the owner, with the owner's
unique real copy `preal`, and ghosts elsewhere), the total force added to
that identity's persistent accumulated force across ALL ranks equals the
owner's single coupling-force evaluation for `preal` — which is exactly one
evaluation of the drag-plus-noise force at the first in-halo image of
`preal`'s position.  No ghost replica is double-counted and the particle is
not missed at a domain boundary. -/
theorem single_counting_invariant (box : BoxGeometry)
    (agrid lattice_speed : ℚ) (cfg : ParticleCouplingConfig)
    (pc : ParticleCoupling) (ranks l1 l2 : List RankView) (ro : RankView)
    (preal : Particle) (pid : ℕ) (f : Vec3)
    (hcube : box.type = BoxType.cuboid)
    (hL : 0 < box.length.x ∧ 0 < box.length.y ∧ 0 < box.length.z)
    (hagrid : 0 ≤ agrid)
    (hmd : cfg.couple_to_md = true)
    (hseed : pc.m_thermalized = true → cfg.rng_counter_coupling.isSome = true)
    (hf : inside_box box.length f)
    (hsub : ∀ r ∈ ranks, ∀ v, in_local_domain r.lg v 0 = true →
      inside_box box.length v)
    (hranks : ranks = l1 ++ ro :: l2)
    (hl1 : ∀ r ∈ l1, in_local_domain r.lg f 0 = false)
    (hl2 : ∀ r ∈ l2, in_local_domain r.lg f 0 = false)
    (hro : in_local_domain ro.lg f 0 = true)
    (hid : ∀ r ∈ ranks, ∀ p ∈ r.copies, p.id = pid)
    (hcop : ∀ r ∈ ranks, ∀ p ∈ r.copies,
      (p.is_virtual && !pc.m_couple_virtual) = false ∧
      ∃ t ∈ shift_triples, p.pos = shift_pos f box.length t)
    (hlig : ro.local_is_ghost pid = false)
    (hfilter : ro.copies.filter (fun p => !p.ghost) = [preal]) :
    total_coupled_force ActiveLB.walberla box agrid lattice_speed cfg pc
        ranks =
      Except.ok (coupling_force_value
        (rank_context box agrid lattice_speed cfg ro) pc preal) ∧
    ∃ pos, (positions_in_halo ro.lg agrid preal.pos box).find?
        (fun v => in_local_halo ro.lg agrid v) = some pos ∧
      coupling_force_value (rank_context box agrid lattice_speed cfg ro) pc
          preal =
        lb_drag_force (rank_context box agrid lattice_speed cfg ro) preal pos
          (lb_particle_coupling_drift_vel_offset preal) +
          noise_value pc cfg pid := by
  subst hranks
  have hro_mem : ro ∈ l1 ++ ro :: l2 :=
    List.mem_append.mpr (Or.inr (List.mem_cons_self ro l2))
  have hpreal_mem : preal ∈ ro.copies := by
    have h0 : preal ∈ ro.copies.filter (fun p => !p.ghost) := by
      rw [hfilter]
      exact List.mem_cons_self preal []
    exact (List.mem_filter.mp h0).1
  obtain ⟨hskip, t, ht, hpos⟩ := hcop ro hro_mem preal hpreal_mem
  have hts : t.add t.neg = (⟨0, 0, 0⟩ : Shift3) := by
    cases t
    simp [Shift3.add, Shift3.neg]
  have hf_mem : f ∈ positions_in_halo ro.lg agrid preal.pos box := by
    rw [positions_in_halo_cuboid ro.lg agrid preal.pos box hcube]
    refine List.mem_filter.mpr ⟨?_, ?_⟩
    · refine List.mem_map.mpr ⟨t.neg, neg_mem_shift_triples t ht, ?_⟩
      rw [hpos, shift_pos_shift_pos, hts, shift_pos_zero]
    · exact in_local_domain_imp_halo ro.lg agrid f hagrid hro
  constructor
  · unfold total_coupled_force
    rw [List.foldlM_append]
    have h1 : (l1.foldlM (fun acc r =>
        (couple_particles_rank ActiveLB.walberla box agrid lattice_speed cfg
          pc r).map (fun fr => acc + fr)) 0) = Except.ok 0 := by
      apply foldlM_const
      intro r hr acc
      rw [couple_rank_not_owner ActiveLB.walberla box agrid lattice_speed cfg
        pc r f rfl hmd hcube hL hagrid hf
        (hsub r (List.mem_append.mpr (Or.inl hr)))
        hseed (hl1 r hr)
        (hcop r (List.mem_append.mpr (Or.inl hr)))]
      simp only [Except.map]
      rw [Vec3.add_zero']
    rw [h1]
    show ((ro :: l2).foldlM (fun acc r =>
      (couple_particles_rank ActiveLB.walberla box agrid lattice_speed cfg
        pc r).map (fun fr => acc + fr)) (0 : Vec3)) = _
    rw [List.foldlM_cons]
    rw [couple_rank_owner ActiveLB.walberla box agrid lattice_speed cfg pc ro
      f preal pid rfl hmd hcube hL hagrid hf (hsub ro hro_mem) hseed hro hlig
      (hid ro hro_mem) (hcop ro hro_mem) hfilter]
    show (l2.foldlM (fun acc r =>
      (couple_particles_rank ActiveLB.walberla box agrid lattice_speed cfg
        pc r).map (fun fr => acc + fr))
      ((0 : Vec3) + coupling_force_value
        (rank_context box agrid lattice_speed cfg ro) pc preal)) = _
    rw [Vec3.zero_add']
    apply foldlM_const
    intro r hr acc
    rw [couple_rank_not_owner ActiveLB.walberla box agrid lattice_speed cfg
      pc r f rfl hmd hcube hL hagrid hf
      (hsub r (List.mem_append.mpr (Or.inr (List.mem_cons_of_mem ro hr))))
      hseed (hl2 r hr)
      (hcop r (List.mem_append.mpr (Or.inr (List.mem_cons_of_mem ro hr))))]
    simp only [Except.map]
    rw [Vec3.add_zero']
  · have hne : positions_in_halo ro.lg agrid preal.pos box ≠ [] := by
      intro hnil
      rw [hnil] at hf_mem
      cases hf_mem
    cases hh : (positions_in_halo ro.lg agrid preal.pos box).head? with
    | none => exact absurd (List.head?_eq_none_iff.mp hh) hne
    | some pos =>
      have hfh : (positions_in_halo ro.lg agrid preal.pos box).find?
          (fun v => in_local_halo ro.lg agrid v) =
          (positions_in_halo ro.lg agrid preal.pos box).head? :=
        find?_filter_head (shift_triples.map fun s =>
          lees_edwards_correction box preal.pos
            (shift_pos preal.pos box.length s))
          (fun v => in_local_halo ro.lg agrid v)
      refine ⟨pos, hfh.trans hh, ?_⟩
      · unfold coupling_force_value
        have hfind : (positions_in_halo
            (rank_context box agrid lattice_speed cfg ro).lg
            (rank_context box agrid lattice_speed cfg ro).agrid preal.pos
            (rank_context box agrid lattice_speed cfg ro).box).find?
            (fun v => in_local_halo
              (rank_context box agrid lattice_speed cfg ro).lg
              (rank_context box agrid lattice_speed cfg ro).agrid v) =
            some pos := hfh.trans hh
        rw [hfind]
        have hpid : preal.id = pid := hid ro hro_mem preal hpreal_mem
        show lb_drag_force (rank_context box agrid lattice_speed cfg ro) preal
            pos (lb_particle_coupling_drift_vel_offset preal) +
            noise_value pc cfg preal.id = _
        rw [hpid]

/-- Witness for claim C1: two ranks splitting an 8³ box at `x = 4`; the
identity 5 is real at `(1,1,1)` on rank 0 (which owns it) and a ghost copy
shifted by one box length sits on rank 1; the coupling is thermalized with
a seeded counter.  The total force added across both ranks is exactly rank
0's single coupling-force evaluation for the real copy. -/
theorem single_counting_invariant_witness :
    total_coupled_force ActiveLB.walberla
        ⟨⟨8, 8, 8⟩, BoxType.cuboid, ⟨0, 0, 0⟩⟩ 1 1 ⟨true, 1/5, some 17⟩
        ⟨true, 1/100, false, 1⟩
        [⟨⟨⟨0, 0, 0⟩, ⟨4, 8, 8⟩⟩, fun _ => false, fun _ => 0,
            [⟨5, ⟨1, 1, 1⟩, 0, false, false, ⟨false, 0, 0, 0, 1⟩, 0, 0⟩]⟩,
          ⟨⟨⟨4, 0, 0⟩, ⟨8, 8, 8⟩⟩, fun _ => true, fun _ => 0,
            [⟨5, ⟨9, 1, 1⟩, 0, false, true, ⟨false, 0, 0, 0, 1⟩, 0, 0⟩]⟩] =
      Except.ok (coupling_force_value
        (rank_context ⟨⟨8, 8, 8⟩, BoxType.cuboid, ⟨0, 0, 0⟩⟩ 1 1
          ⟨true, 1/5, some 17⟩
          ⟨⟨⟨0, 0, 0⟩, ⟨4, 8, 8⟩⟩, fun _ => false, fun _ => 0,
            [⟨5, ⟨1, 1, 1⟩, 0, false, false, ⟨false, 0, 0, 0, 1⟩, 0, 0⟩]⟩)
        ⟨true, 1/100, false, 1⟩
        ⟨5, ⟨1, 1, 1⟩, 0, false, false, ⟨false, 0, 0, 0, 1⟩, 0, 0⟩) := by
  have h := single_counting_invariant
    ⟨⟨8, 8, 8⟩, BoxType.cuboid, ⟨0, 0, 0⟩⟩ 1 1 ⟨true, 1/5, some 17⟩
    ⟨true, 1/100, false, 1⟩
    [⟨⟨⟨0, 0, 0⟩, ⟨4, 8, 8⟩⟩, fun _ => false, fun _ => 0,
        [⟨5, ⟨1, 1, 1⟩, 0, false, false, ⟨false, 0, 0, 0, 1⟩, 0, 0⟩]⟩,
      ⟨⟨⟨4, 0, 0⟩, ⟨8, 8, 8⟩⟩, fun _ => true, fun _ => 0,
        [⟨5, ⟨9, 1, 1⟩, 0, false, true, ⟨false, 0, 0, 0, 1⟩, 0, 0⟩]⟩]
    [] [⟨⟨⟨4, 0, 0⟩, ⟨8, 8, 8⟩⟩, fun _ => true, fun _ => 0,
        [⟨5, ⟨9, 1, 1⟩, 0, false, true, ⟨false, 0, 0, 0, 1⟩, 0, 0⟩]⟩]
    ⟨⟨⟨0, 0, 0⟩, ⟨4, 8, 8⟩⟩, fun _ => false, fun _ => 0,
      [⟨5, ⟨1, 1, 1⟩, 0, false, false, ⟨false, 0, 0, 0, 1⟩, 0, 0⟩]⟩
    ⟨5, ⟨1, 1, 1⟩, 0, false, false, ⟨false, 0, 0, 0, 1⟩, 0, 0⟩ 5 ⟨1, 1, 1⟩
    rfl (by norm_num) (by norm_num) rfl (fun _ => rfl)
    (by norm_num [inside_box])
    ?_ rfl ?_ ?_ ?_ ?_ ?_ rfl ?_
  · exact h.1
  · intro r hr v hv
    simp only [List.mem_cons, List.not_mem_nil, or_false] at hr
    rcases hr with rfl | rfl <;>
      (simp only [in_local_domain, Bool.and_eq_true, decide_eq_true_eq] at hv;
       obtain ⟨⟨⟨a1, a2⟩, b1, b2⟩, c1, c2⟩ := hv;
       exact ⟨⟨show (0:ℚ) ≤ v.x by linarith, show v.x < 8 by linarith⟩,
         ⟨show (0:ℚ) ≤ v.y by linarith, show v.y < 8 by linarith⟩,
         show (0:ℚ) ≤ v.z by linarith, show v.z < 8 by linarith⟩)
  · intro r hr
    cases hr
  · intro r hr
    simp only [List.mem_cons, List.not_mem_nil, or_false] at hr
    subst hr
    norm_num [in_local_domain]
  · norm_num [in_local_domain]
  · intro r hr p hp
    simp only [List.mem_cons, List.not_mem_nil, or_false] at hr
    rcases hr with rfl | rfl <;>
      (simp only [List.mem_cons, List.not_mem_nil, or_false] at hp;
       subst hp; rfl)
  · intro r hr p hp
    simp only [List.mem_cons, List.not_mem_nil, or_false] at hr
    rcases hr with rfl | rfl <;>
      simp only [List.mem_cons, List.not_mem_nil, or_false] at hp
    · subst hp
      refine ⟨rfl, ⟨0, 0, 0⟩, by decide, ?_⟩
      simp [shift_pos, Vec3.hadamard, Vec3.add_def]
    · subst hp
      refine ⟨rfl, ⟨1, 0, 0⟩, by decide, ?_⟩
      simp [shift_pos, Vec3.hadamard, Vec3.add_def]
      norm_num
  · rfl
